import Mathlib

/-!
Verification of the leveldb-style framed log store (`wandb/sdk/internal/datastore.py`),
the record router (`wandb/sdk_py27/internal/handler.py`) and the sender state machine
(`wandb/sdk/internal/sender.py`).

The byte-level model represents a file as a `List Nat` of byte values and the
`DataStore` writer state as the pair of its write index (`self._index`) and the
bytes written so far.  Python's `x & 0xFFFFFFFF` is written `x % 4294967296`,
which is the same function on naturals.
-/

namespace Datastore

/-- `LEVELDBLOG_HEADER_LEN` -/
def headerLen : Nat := 7

/-- `LEVELDBLOG_BLOCK_LEN` -/
def blockLen : Nat := 32768

/-- `LEVELDBLOG_DATA_LEN = LEVELDBLOG_BLOCK_LEN - LEVELDBLOG_HEADER_LEN` -/
def dataLen : Nat := 32761

/-! ## CRC32 (zlib.crc32)

The standard reflected CRC-32 with polynomial 0xEDB88320, initial value
`value XOR 0xFFFFFFFF` and final complement, exactly zlib's `crc32(data, value)`. -/

/-- The reflected CRC-32 polynomial. -/
def crcPoly : Nat := 0xEDB88320

/-- One bit step of CRC-32: shift right, conditionally XOR the polynomial. -/
def crcStep (c : Nat) : Nat :=
  if c % 2 = 1 then (c / 2) ^^^ crcPoly else c / 2

/-- Process one byte: XOR it into the state, then run eight bit steps. -/
def crcByte (c b : Nat) : Nat :=
  crcStep (crcStep (crcStep (crcStep (crcStep (crcStep (crcStep (crcStep (c ^^^ b))))))))

/-- Run the CRC state over a list of bytes. -/
def crcRaw (c : Nat) (data : List Nat) : Nat :=
  data.foldl crcByte c

/-- `zlib.crc32(data, value)`. -/
def crc32 (data : List Nat) (value : Nat) : Nat :=
  crcRaw (value ^^^ 0xFFFFFFFF) data ^^^ 0xFFFFFFFF

/-- `self._crc[t]`: the per-chunk-type CRC seed table built in `DataStore.__init__`
(`zlib.crc32(strtobytes(chr(x))) & 0xFFFFFFFF` for `x` in 1..4, and 0 at index 0). -/
def crcSeed (t : Nat) : Nat :=
  if t = 0 then 0 else crc32 [t] 0 % 4294967296

/-! ## struct packing (`struct.pack`/`struct.unpack` with format `<IHB`) -/

/-- Little-endian 4-byte encoding of a `uint32` (`struct.pack "<I"`). -/
def packU32 (n : Nat) : List Nat :=
  [n % 256, n / 256 % 256, n / 65536 % 256, n / 16777216 % 256]

/-- Little-endian 2-byte encoding of a `uint16` (`struct.pack "<H"`). -/
def packU16 (n : Nat) : List Nat :=
  [n % 256, n / 256 % 256]

/-- Decode 4 little-endian bytes (`struct.unpack "<I"`). -/
def unpackU32 (l : List Nat) : Nat :=
  l.getD 0 0 + 256 * l.getD 1 0 + 65536 * l.getD 2 0 + 16777216 * l.getD 3 0

/-- Decode 2 little-endian bytes (`struct.unpack "<H"`). -/
def unpackU16 (l : List Nat) : Nat :=
  l.getD 0 0 + 256 * l.getD 1 0

/-- `self._fp.read(n)` after seeking to byte `ix` of file `f`: returns up to `n`
bytes, fewer at end of file. -/
def readBytes (f : List Nat) (ix n : Nat) : List Nat :=
  (f.drop ix).take n

/-- The 7-byte file header written by `_write_header`:
`struct.pack("<4sHB", b":W&B", 0xBEE1, 0)`. -/
def headerBytes : List Nat :=
  [58, 87, 38, 66] ++ packU16 48865 ++ [0]

/-! ## Writer (`DataStore` in write mode) -/

/-- The writer state: `self._index` and the bytes written to `self._fp` so far. -/
structure DataStore where
  index : Nat
  file : List Nat
deriving DecidableEq, Repr

/-- The fresh store made by `DataStore.__init__` (before any file is opened). -/
def freshStore : DataStore := ⟨0, []⟩

/-- `_write_header`: append the 7 header bytes and advance the index. -/
def writeHeader (ds : DataStore) : DataStore :=
  ⟨ds.index + 7, ds.file ++ headerBytes⟩

/-- `open_for_write(fname)` on a filesystem where the file either exists with
the given contents or does not: mode `"xb"` raises if the file exists,
otherwise a fresh store is created and the header written. -/
def openForWrite (existing : Option (List Nat)) : Option DataStore :=
  match existing with
  | some _ => none
  | none => some (writeHeader freshStore)

/-- `open_for_append(fname)`: the source opens the file with mode `"wb"`
(truncating it) and does not write a header or restore `self._index`
(the body is a `TODO: implement` stub). -/
def openForAppend (_existing : Option (List Nat)) : DataStore :=
  freshStore

/-- The writer state after `open_for_write` on a fresh file. -/
def openWriteStore : DataStore := writeHeader freshStore

/-- One chunk as laid out on disk by `_write_record`:
`struct.pack("<IHB", crc32(s, self._crc[dtype]) & 0xFFFFFFFF, len(s), dtype)`
followed by the payload. -/
def chunk (dtype : Nat) (s : List Nat) : List Nat :=
  packU32 (crc32 s (crcSeed dtype) % 4294967296) ++ packU16 s.length ++ [dtype] ++ s

/-- `_write_record(s, dtype)`.  The leading `assert` (the slice must fit in the
space remaining in the current block) is modelled by returning `none` when it
fails. -/
def writeRecord (ds : DataStore) (s : List Nat) (dtype : Nat) : Option DataStore :=
  if s.length + 7 ≤ blockLen - ds.index % blockLen then
    some ⟨ds.index + 7 + s.length, ds.file ++ chunk dtype s⟩
  else
    none

/-- The zero-padding step at the top of `_write_data`: if fewer than 7 bytes
remain in the current block, write that many zero bytes. -/
def padTo (ds : DataStore) : DataStore :=
  let space := blockLen - ds.index % blockLen
  if space < 7 then ⟨ds.index + space, ds.file ++ List.replicate space 0⟩ else ds

/-- The `while data_left > LEVELDBLOG_DATA_LEN` loop of `_write_data` followed by
the final LAST record: writes full-block MIDDLE chunks and then the remainder
as a LAST chunk. -/
def writeMiddles (ds : DataStore) (rest : List Nat) : Option DataStore :=
  if h : rest.length > dataLen then
    match writeRecord ds (rest.take dataLen) 3 with
    | some ds1 => writeMiddles ds1 (rest.drop dataLen)
    | none => none
  else
    writeRecord ds rest 4
termination_by rest.length
decreasing_by
  simp only [List.length_drop, dataLen] at *
  omega

/-- The body of `_write_data` after the padding step: a single FULL record when
the payload plus header fits in the current block, otherwise a FIRST record
filling the block followed by MIDDLE/LAST records. -/
def writeDataCore (ds : DataStore) (s : List Nat) : Option DataStore :=
  let space := blockLen - ds.index % blockLen
  if s.length + 7 ≤ space then
    writeRecord ds s 1
  else
    match writeRecord ds (s.take (space - 7)) 2 with
    | some ds1 => writeMiddles ds1 (s.drop (space - 7))
    | none => none

/-- `_write_data(s)`: pad the block tail if needed, then write the payload. -/
def writeData (ds : DataStore) (s : List Nat) : Option DataStore :=
  writeDataCore (padTo ds) s

/-- Append a sequence of payloads with `_write_data`. -/
def writeAll (ds : DataStore) : List (List Nat) → Option DataStore
  | [] => some ds
  | p :: ps =>
    match writeData ds p with
    | some ds1 => writeAll ds1 ps
    | none => none

/-! ## Scanner (`DataStore` in scan mode) -/

/-- Result of one scanner operation: a value plus the new `self._index`, a clean
end of file (Python `return None`), or a raised error (failed `assert` /
`IndexError`). -/
inductive ScanOut (α : Type) where
  | ok : α → Nat → ScanOut α
  | eof : ScanOut α
  | fail : ScanOut α
deriving DecidableEq, Repr

/-- `_read_header` as run by `open_for_scan`: read 7 bytes, check the ident,
magic and version fields; `some 7` is the resulting `self._index`. -/
def readHeader (f : List Nat) : Option Nat :=
  let h := readBytes f 0 7
  if h.length = 7 then
    if h.take 4 = [58, 87, 38, 66] ∧ unpackU16 ((h.drop 4).take 2) = 48865 ∧ h.getD 6 0 = 0 then
      some 7
    else none
  else none

/-- `scan_record()` at index `ix` of file `f`. -/
def scanRecord (f : List Nat) (ix : Nat) : ScanOut (Nat × List Nat) :=
  let header := readBytes f ix 7
  if header.length = 0 then .eof
  else if header.length = 7 then
    let checksum := unpackU32 (header.take 4)
    let dlength := unpackU16 ((header.drop 4).take 2)
    let dtype := header.getD 6 0
    if dtype ≤ 4 then
      let data := readBytes f (ix + 7) dlength
      if checksum = crc32 data (crcSeed dtype) % 4294967296 then
        .ok (dtype, data) (ix + 7 + dlength)
      else .fail
    else .fail
  else .fail

/-- A successful `scanRecord` implies the full 7-byte chunk header was present
and the index advanced by at least the header length. -/
theorem scanRecord_ok_le {f : List Nat} {ix : Nat} {t : Nat} {d : List Nat} {ix2 : Nat}
    (h : scanRecord f ix = .ok (t, d) ix2) : ix + 7 ≤ f.length ∧ ix + 7 ≤ ix2 := by
  unfold scanRecord at h
  dsimp only at h
  split at h
  · exact absurd h (by simp)
  · split at h
    · next hlen7 =>
      constructor
      · simp only [readBytes, List.length_take, List.length_drop] at hlen7
        omega
      · split at h
        · split at h
          · simp only [ScanOut.ok.injEq] at h
            omega
          · exact absurd h (by simp)
        · exact absurd h (by simp)
    · exact absurd h (by simp)

/-- The `while True` loop of `scan_data` after a FIRST chunk: keep reading
MIDDLE chunks, accumulate payloads, stop at a LAST chunk; a clean end of file
returns `None` and anything else is an assertion failure. -/
def scanDataLoop (f : List Nat) (ix : Nat) (acc : List Nat) : ScanOut (List Nat) :=
  match h : scanRecord f ix with
  | .eof => .eof
  | .fail => .fail
  | .ok (dtype, newData) ix1 =>
    if dtype = 4 then .ok (acc ++ newData) ix1
    else if dtype = 3 then scanDataLoop f ix1 (acc ++ newData)
    else .fail
termination_by f.length - ix
decreasing_by
  have := scanRecord_ok_le h
  omega

/-- The part of `scan_data` after the padding check: read one record, return a
FULL payload directly, enter the accumulation loop after a FIRST chunk. -/
def scanDataRest (f : List Nat) (ix : Nat) : ScanOut (List Nat) :=
  match scanRecord f ix with
  | .eof => .eof
  | .fail => .fail
  | .ok (dtype, data) ix1 =>
    if dtype = 1 then .ok data ix1
    else if dtype = 2 then scanDataLoop f ix1 data
    else .fail

/-- `scan_data()` at index `ix`: if fewer than 7 bytes remain in the current
block, read them, check they are zero padding, then scan the next record. -/
def scanData (f : List Nat) (ix : Nat) : ScanOut (List Nat) :=
  let spaceLeft := blockLen - ix % blockLen
  if spaceLeft < 7 then
    if readBytes f ix spaceLeft = List.replicate spaceLeft 0 then
      scanDataRest f (ix + spaceLeft)
    else .fail
  else scanDataRest f ix

/-- Scan `n` consecutive payloads with `scan_data`, returning them together
with the final index, or `none` if any scan does not return a payload. -/
def scanPayloads (f : List Nat) (ix : Nat) : Nat → Option (List (List Nat) × Nat)
  | 0 => some ([], ix)
  | n + 1 =>
    match scanData f ix with
    | .ok d ix1 =>
      match scanPayloads f ix1 n with
      | some (l, j) => some (d :: l, j)
      | none => none
    | _ => none

/-! ## Basic packing and reading lemmas -/

theorem unpackU32_packU32 (n : Nat) (h : n < 4294967296) : unpackU32 (packU32 n) = n := by
  show n % 256 + 256 * (n / 256 % 256) + 65536 * (n / 65536 % 256) + 16777216 * (n / 16777216 % 256) = n
  omega

theorem unpackU16_packU16 (n : Nat) (h : n < 65536) : unpackU16 (packU16 n) = n := by
  show n % 256 + 256 * (n / 256 % 256) = n
  omega

theorem chunk_decomp (t : Nat) (s : List Nat) :
    chunk t s = (packU32 (crc32 s (crcSeed t) % 4294967296) ++ packU16 s.length ++ [t]) ++ s := by
  simp [chunk]

theorem length_chunk (t : Nat) (s : List Nat) : (chunk t s).length = 7 + s.length := by
  simp [chunk, packU32, packU16]
  omega

theorem readBytes_append (pre post : List Nat) (n : Nat) :
    readBytes (pre ++ post) pre.length n = post.take n := by
  simp [readBytes, List.drop_left]

theorem readBytes_append_at (pre post : List Nat) (ix n : Nat) (h : ix = pre.length) :
    readBytes (pre ++ post) ix n = post.take n := by
  subst h; exact readBytes_append pre post n

/-- Reading one chunk written at position `pre.length`: `scan_record` returns
its type and payload and advances past it. -/
theorem scanRecord_chunk (pre s tail : List Nat) (t : Nat) (ht4 : t ≤ 4)
    (hlen : s.length < 65536) :
    scanRecord (pre ++ (chunk t s ++ tail)) pre.length = .ok (t, s) (pre.length + 7 + s.length) := by
  have hcb : crc32 s (crcSeed t) % 4294967296 < 4294967296 := Nat.mod_lt _ (by norm_num)
  set c := crc32 s (crcSeed t) % 4294967296 with hc
  have hdr7 : (packU32 c ++ packU16 s.length ++ [t]).length = 7 := rfl
  have hheader : readBytes (pre ++ (chunk t s ++ tail)) pre.length 7
      = packU32 c ++ packU16 s.length ++ [t] := by
    rw [chunk_decomp, List.append_assoc _ s tail, readBytes_append]
    exact List.take_left' hdr7
  have hdata : readBytes (pre ++ (chunk t s ++ tail)) (pre.length + 7) s.length = s := by
    have heq : pre ++ (chunk t s ++ tail)
        = (pre ++ (packU32 c ++ packU16 s.length ++ [t])) ++ (s ++ tail) := by
      rw [chunk_decomp]; simp [List.append_assoc]
    rw [heq, readBytes_append_at _ _ _ _ (by rw [List.length_append, hdr7]), List.take_left]
  unfold scanRecord
  dsimp only
  rw [hheader, hdr7]
  have htake4 : (packU32 c ++ packU16 s.length ++ [t]).take 4 = packU32 c := rfl
  have hdrop4 : ((packU32 c ++ packU16 s.length ++ [t]).drop 4).take 2 = packU16 s.length := rfl
  have hgetD : (packU32 c ++ packU16 s.length ++ [t]).getD 6 0 = t := rfl
  rw [htake4, hdrop4, hgetD, unpackU32_packU32 c hcb, unpackU16_packU16 s.length hlen, hdata]
  simp [ht4, hc]

/-- `_write_record` succeeds exactly when the slice fits, and then appends one
chunk and advances the index by the chunk length. -/
theorem writeRecord_eq {ds : DataStore} {s : List Nat} {t : Nat} {ds' : DataStore}
    (h : writeRecord ds s t = some ds') :
    s.length + 7 ≤ blockLen - ds.index % blockLen ∧
    ds' = ⟨ds.index + 7 + s.length, ds.file ++ chunk t s⟩ := by
  unfold writeRecord at h
  split at h
  · exact ⟨by assumption, by simpa using h.symm⟩
  · exact absurd h (by simp)

theorem writeRecord_fits {ds : DataStore} {s : List Nat} {t : Nat}
    (h : s.length + 7 ≤ blockLen - ds.index % blockLen) :
    writeRecord ds s t = some ⟨ds.index + 7 + s.length, ds.file ++ chunk t s⟩ := by
  unfold writeRecord
  simp [h]

/-- `scanRecord` at a position at or past the end of the file reads an empty
header and reports a clean end of file. -/
theorem scanRecord_eof {f : List Nat} {ix : Nat} (h : f.length ≤ ix) :
    scanRecord f ix = .eof := by
  unfold scanRecord
  have hrd : readBytes f ix 7 = [] := by
    simp [readBytes, List.drop_eq_nil_of_le h]
  simp [hrd]

/-! ## Write/scan composition -/

/-- Scanning the MIDDLE/LAST chunks written by the `_write_data` loop from a
block boundary: the loop of `scan_data` accumulates exactly the written bytes
and stops after the LAST chunk. -/
theorem writeMiddles_scan (rest : List Nat) (ds ds' : DataStore)
    (hmod : ds.index % blockLen = 0) (hinv : ds.index = ds.file.length)
    (h : writeMiddles ds rest = some ds') :
    ds'.index = ds'.file.length ∧ (∃ d, ds'.file = ds.file ++ d) ∧
    ∀ tail acc, scanDataLoop (ds'.file ++ tail) ds.index acc = .ok (acc ++ rest) ds'.index := by
  rw [writeMiddles] at h
  split at h
  · next hgt =>
    -- a full-block MIDDLE chunk, then recurse
    have htlen : (rest.take dataLen).length = dataLen := by
      simp [List.length_take]; omega
    have hfit : (rest.take dataLen).length + 7 ≤ blockLen - ds.index % blockLen := by
      rw [htlen, hmod]; simp [dataLen, blockLen]
    rw [writeRecord_fits hfit] at h
    set ds1 : DataStore := ⟨ds.index + 7 + (rest.take dataLen).length, ds.file ++ chunk 3 (rest.take dataLen)⟩ with hds1
    have hmod1 : ds1.index % blockLen = 0 := by
      simp only [hds1, htlen]
      simp only [dataLen, blockLen] at *
      omega
    have hinv1 : ds1.index = ds1.file.length := by
      simp [hds1, hinv, length_chunk, htlen]
      omega
    have ih := writeMiddles_scan (rest.drop dataLen) ds1 ds' hmod1 hinv1 h
    obtain ⟨ihinv, ⟨d, hd⟩, ihscan⟩ := ih
    refine ⟨ihinv, ⟨chunk 3 (rest.take dataLen) ++ d, by simp [hd, hds1]⟩, ?_⟩
    intro tail acc
    have hfile : ds'.file ++ tail = ds.file ++ (chunk 3 (rest.take dataLen) ++ (d ++ tail)) := by
      simp [hd, hds1]
    have hscan1 : scanRecord (ds'.file ++ tail) ds.index = .ok (3, rest.take dataLen) ds1.index := by
      rw [hfile, hinv]
      have := scanRecord_chunk ds.file (rest.take dataLen) (d ++ tail) 3 (by norm_num)
        (by rw [htlen]; norm_num [dataLen])
      rw [this, hds1]
      simp [hinv]
    rw [scanDataLoop]
    split
    · next heq => rw [hscan1] at heq; exact absurd heq (by simp)
    · next heq => rw [hscan1] at heq; exact absurd heq (by simp)
    · next dtype newData ix1 heq =>
      rw [hscan1] at heq
      obtain ⟨h1, h2⟩ := ScanOut.ok.inj heq
      obtain ⟨h3, h4⟩ := Prod.mk.inj h1
      subst h2; subst h4
      rw [if_neg (by omega), if_pos h3.symm]
      rw [ihscan tail (acc ++ rest.take dataLen)]
      rw [List.append_assoc, List.take_append_drop]
  · next hle =>
    -- the terminal LAST chunk
    have hfit : rest.length + 7 ≤ blockLen - ds.index % blockLen := by
      rw [hmod]
      simp only [dataLen, blockLen] at *
      omega
    rw [writeRecord_fits hfit] at h
    obtain rfl : (⟨ds.index + 7 + rest.length, ds.file ++ chunk 4 rest⟩ : DataStore) = ds' := by
      simpa using h
    refine ⟨by simp [hinv, length_chunk]; omega, ⟨chunk 4 rest, rfl⟩, ?_⟩
    intro tail acc
    have hscan1 : scanRecord ((ds.file ++ chunk 4 rest) ++ tail) ds.index
        = .ok (4, rest) (ds.index + 7 + rest.length) := by
      rw [List.append_assoc, hinv]
      have := scanRecord_chunk ds.file rest tail 4 (by norm_num)
        (by simp only [dataLen] at hle; omega)
      rw [this]
    rw [scanDataLoop]
    split
    · next heq => rw [hscan1] at heq; exact absurd heq (by simp)
    · next heq => rw [hscan1] at heq; exact absurd heq (by simp)
    · next dtype newData ix1 heq =>
      rw [hscan1] at heq
      obtain ⟨h1, h2⟩ := ScanOut.ok.inj heq
      obtain ⟨h3, h4⟩ := Prod.mk.inj h1
      subst h2; subst h4
      rw [if_pos h3.symm]
termination_by rest.length
decreasing_by
  simp only [List.length_drop, dataLen] at *
  omega

/-- Scanning one payload written by the body of `_write_data` (after padding):
`scan_data`'s record phase returns exactly the written payload. -/
theorem writeDataCore_scan (ds : DataStore) (s : List Nat) (ds' : DataStore)
    (hspace : 7 ≤ blockLen - ds.index % blockLen) (hinv : ds.index = ds.file.length)
    (h : writeDataCore ds s = some ds') :
    ds'.index = ds'.file.length ∧ (∃ d, ds'.file = ds.file ++ d) ∧
    ∀ tail, scanDataRest (ds'.file ++ tail) ds.index = .ok s ds'.index := by
  unfold writeDataCore at h
  dsimp only at h
  split at h
  · next hfits =>
    -- single FULL chunk
    rw [writeRecord_fits (by omega)] at h
    obtain rfl : ds' = ⟨ds.index + 7 + s.length, ds.file ++ chunk 1 s⟩ := by
      exact (Option.some.inj h).symm
    have hlen : s.length < 65536 := by
      have : blockLen - ds.index % blockLen ≤ blockLen := Nat.sub_le _ _
      simp only [blockLen] at *
      omega
    refine ⟨by simp [hinv, length_chunk]; omega, ⟨chunk 1 s, rfl⟩, ?_⟩
    intro tail
    have hscan1 : scanRecord ((ds.file ++ chunk 1 s) ++ tail) ds.index
        = .ok (1, s) (ds.index + 7 + s.length) := by
      rw [List.append_assoc, hinv]
      rw [scanRecord_chunk ds.file s tail 1 (by norm_num) hlen]
    unfold scanDataRest
    rw [hscan1]
    dsimp only
    rw [if_pos rfl]
  · next hfits =>
    -- FIRST chunk filling the block, then MIDDLE/LAST chunks
    set room := blockLen - ds.index % blockLen - 7 with hroom
    have hslen : room < s.length := by omega
    have htake : (s.take room).length = room := by
      simp [List.length_take]; omega
    rw [writeRecord_fits (by rw [htake]; omega)] at h
    set ds1 : DataStore := ⟨ds.index + 7 + (s.take room).length, ds.file ++ chunk 2 (s.take room)⟩ with hds1
    have hmod1 : ds1.index % blockLen = 0 := by
      simp only [hds1, htake, hroom]
      have h1 : ds.index % blockLen < blockLen := Nat.mod_lt _ (by norm_num [blockLen])
      simp only [blockLen] at *
      omega
    have hinv1 : ds1.index = ds1.file.length := by
      simp [hds1, hinv, length_chunk]
      omega
    obtain ⟨ihinv, ⟨d, hd⟩, ihscan⟩ := writeMiddles_scan (s.drop room) ds1 ds' hmod1 hinv1 h
    refine ⟨ihinv, ⟨chunk 2 (s.take room) ++ d, by simp [hd, hds1]⟩, ?_⟩
    intro tail
    have hfile : ds'.file ++ tail = ds.file ++ (chunk 2 (s.take room) ++ (d ++ tail)) := by
      simp [hd, hds1]
    have hscan1 : scanRecord (ds'.file ++ tail) ds.index = .ok (2, s.take room) ds1.index := by
      rw [hfile, hinv]
      rw [scanRecord_chunk ds.file (s.take room) (d ++ tail) 2 (by norm_num)
        (by rw [htake]; simp only [blockLen] at *; omega), hds1]
      simp [hinv]
    unfold scanDataRest
    rw [hscan1]
    dsimp only
    rw [if_neg (by decide), if_pos rfl]
    rw [ihscan tail (s.take room), List.take_append_drop]

/-- Scanning one payload written by `_write_data`, including the zero-padding
of a block tail shorter than a chunk header. -/
theorem writeData_scan (ds : DataStore) (s : List Nat) (ds' : DataStore)
    (hinv : ds.index = ds.file.length) (h : writeData ds s = some ds') :
    ds'.index = ds'.file.length ∧ (∃ d, ds'.file = ds.file ++ d) ∧
    ∀ tail, scanData (ds'.file ++ tail) ds.index = .ok s ds'.index := by
  unfold writeData padTo at h
  dsimp only at h
  by_cases hsp : blockLen - ds.index % blockLen < 7
  · rw [if_pos hsp] at h
    set sp := blockLen - ds.index % blockLen with hspdef
    set dsp : DataStore := ⟨ds.index + sp, ds.file ++ List.replicate sp 0⟩ with hdsp
    have hmodp : dsp.index % blockLen = 0 := by
      simp only [hdsp, hspdef]
      have h1 : ds.index % blockLen < blockLen := Nat.mod_lt _ (by norm_num [blockLen])
      simp only [blockLen] at *
      omega
    have hinvp : dsp.index = dsp.file.length := by
      simp [hdsp, hinv, hspdef]
    obtain ⟨ihinv, ⟨d, hd⟩, ihscan⟩ := writeDataCore_scan dsp s ds'
      (by rw [hmodp]; norm_num [blockLen]) hinvp h
    refine ⟨ihinv, ⟨List.replicate sp 0 ++ d, by simp [hd, hdsp]⟩, ?_⟩
    intro tail
    unfold scanData
    dsimp only
    rw [if_pos hsp]
    have hfile : ds'.file ++ tail = ds.file ++ (List.replicate sp 0 ++ (d ++ tail)) := by
      simp [hd, hdsp]
    have hpad : readBytes (ds'.file ++ tail) ds.index (blockLen - ds.index % blockLen)
        = List.replicate sp 0 := by
      rw [hfile, readBytes_append_at _ _ _ _ hinv, ← hspdef]
      rw [List.take_left' (by simp)]
    rw [hpad, if_pos rfl, ← hspdef]
    exact ihscan tail
  · rw [if_neg hsp] at h
    obtain ⟨ihinv, ⟨d, hd⟩, ihscan⟩ := writeDataCore_scan ds s ds' (by omega) hinv h
    refine ⟨ihinv, ⟨d, hd⟩, ?_⟩
    intro tail
    unfold scanData
    dsimp only
    rw [if_neg hsp]
    exact ihscan tail

/-- Scanning back a whole written payload sequence. -/
theorem writeAll_scan (ps : List (List Nat)) (ds ds' : DataStore)
    (hinv : ds.index = ds.file.length) (h : writeAll ds ps = some ds') :
    ds'.index = ds'.file.length ∧ (∃ d, ds'.file = ds.file ++ d) ∧
    ∀ tail, scanPayloads (ds'.file ++ tail) ds.index ps.length = some (ps, ds'.index) := by
  induction ps generalizing ds with
  | nil =>
    obtain rfl : ds = ds' := by simpa [writeAll] using h
    exact ⟨hinv, ⟨[], by simp⟩, fun tail => by simp [scanPayloads]⟩
  | cons p ps ih =>
    unfold writeAll at h
    split at h
    · next ds1 hw =>
      obtain ⟨hinv1, ⟨d1, hd1⟩, hscan1⟩ := writeData_scan ds p ds1 hinv hw
      obtain ⟨hinv2, ⟨d2, hd2⟩, hscan2⟩ := ih ds1 hinv1 h
      refine ⟨hinv2, ⟨d1 ++ d2, by simp [hd2, hd1]⟩, ?_⟩
      intro tail
      have hfile : ds'.file ++ tail = ds1.file ++ (d2 ++ tail) := by simp [hd2]
      unfold scanPayloads
      dsimp only [List.length_cons]
      rw [hfile, hscan1 (d2 ++ tail)]
      dsimp only
      rw [← hfile, hscan2 tail]
    · exact absurd h (by simp)

/-- At the end of the written file, `scan_data` reports a clean end of stream
when at least a chunk header's worth of space remains in the current block,
and an assertion failure (the zero-pad check reads past end of file)
otherwise. -/
theorem scanData_end (f : List Nat) (ix : Nat) (h : f.length ≤ ix) :
    scanData f ix = if blockLen - ix % blockLen < 7 then .fail else .eof := by
  unfold scanData
  dsimp only
  by_cases hsp : blockLen - ix % blockLen < 7
  · rw [if_pos hsp, if_pos hsp]
    have hrd : readBytes f ix (blockLen - ix % blockLen) = [] := by
      simp [readBytes, List.drop_eq_nil_of_le h]
    rw [hrd]
    have hsp1 : 1 ≤ blockLen - ix % blockLen := by
      have h1 : ix % blockLen < blockLen := Nat.mod_lt _ (by norm_num [blockLen])
      omega
    have hne : ¬(([] : List Nat) = List.replicate (blockLen - ix % blockLen) 0) := by
      intro hcontra
      have hlen := congrArg List.length hcontra
      simp at hlen
      omega
    rw [if_neg hne]
  · rw [if_neg hsp, if_neg hsp]
    unfold scanDataRest
    rw [scanRecord_eof h]

/-- The writer's file always starts with the 7 file-header bytes, which
`_read_header` accepts. -/
theorem readHeader_writer (d : List Nat) : readHeader (headerBytes ++ d) = some 7 := by
  unfold readHeader
  have hrd : readBytes (headerBytes ++ d) 0 7 = headerBytes := by
    have hrb : readBytes (headerBytes ++ d) 0 7 = (headerBytes ++ d).take 7 := by
      simp [readBytes]
    rw [hrb]
    exact List.take_left' rfl
  rw [hrd]
  norm_num [headerBytes, packU16, unpackU16]

/-! ## Safety of the write path -/

/-- The MIDDLE/LAST loop never violates the `_write_record` precondition when
started at a block boundary. -/
theorem writeMiddles_isSome (rest : List Nat) (ds : DataStore)
    (hmod : ds.index % blockLen = 0) : (writeMiddles ds rest).isSome := by
  rw [writeMiddles]
  split
  · next hgt =>
    have htlen : (rest.take dataLen).length = dataLen := by
      simp [List.length_take]; omega
    rw [writeRecord_fits (by rw [htlen, hmod]; norm_num [dataLen, blockLen])]
    exact writeMiddles_isSome (rest.drop dataLen) _
      (by simp only [htlen]; simp only [dataLen, blockLen] at *; omega)
  · next hle =>
    rw [writeRecord_fits (by rw [hmod]; simp only [dataLen, blockLen] at *; omega)]
    simp
termination_by rest.length
decreasing_by
  simp only [List.length_drop, dataLen] at *
  omega

/-- The body of `_write_data` never violates the `_write_record` precondition
when at least a chunk header fits in the current block. -/
theorem writeDataCore_isSome (ds : DataStore) (s : List Nat)
    (hspace : 7 ≤ blockLen - ds.index % blockLen) : (writeDataCore ds s).isSome := by
  unfold writeDataCore
  dsimp only
  split
  · next hfits =>
    rw [writeRecord_fits (by omega)]
    simp
  · next hfits =>
    have htake : (s.take (blockLen - ds.index % blockLen - 7)).length
        = blockLen - ds.index % blockLen - 7 := by
      simp [List.length_take]; omega
    rw [writeRecord_fits (by rw [htake]; omega)]
    refine writeMiddles_isSome _ _ ?_
    show (ds.index + 7 + (s.take (blockLen - ds.index % blockLen - 7)).length) % blockLen = 0
    rw [htake]
    have h1 : ds.index % blockLen < blockLen := Nat.mod_lt _ (by norm_num [blockLen])
    simp only [blockLen] at *
    omega

/-- After the padding step at least a full chunk header fits in the block. -/
theorem padTo_space (ds : DataStore) : 7 ≤ blockLen - (padTo ds).index % blockLen := by
  unfold padTo
  dsimp only
  have h1 : ds.index % blockLen < blockLen := Nat.mod_lt _ (by norm_num [blockLen])
  split
  · next hlt =>
    show 7 ≤ blockLen - (ds.index + (blockLen - ds.index % blockLen)) % blockLen
    simp only [blockLen] at *
    omega
  · next hge => omega

/-- `_write_data` never fails: every internal `_write_record` call satisfies
its slice-fits precondition. -/
theorem writeData_isSome (ds : DataStore) (s : List Nat) : (writeData ds s).isSome := by
  unfold writeData
  exact writeDataCore_isSome _ s (padTo_space ds)

/-- `writeData` preserves the index/length invariant (also derivable from
`writeData_scan`; stated directly for reuse). -/
theorem writeAll_isSome (ps : List (List Nat)) (ds : DataStore) :
    (writeAll ds ps).isSome := by
  induction ps generalizing ds with
  | nil => simp [writeAll]
  | cons p ps ih =>
    unfold writeAll
    obtain ⟨ds1, hds1⟩ := Option.isSome_iff_exists.mp (writeData_isSome ds p)
    rw [hds1]
    exact ih ds1

/-- `_write_data` when the payload plus header fits in the current block and no
padding is needed: a single FULL chunk is written. -/
theorem writeData_full (ds : DataStore) (s : List Nat)
    (h7 : 7 ≤ blockLen - ds.index % blockLen)
    (hfit : s.length + 7 ≤ blockLen - ds.index % blockLen) :
    writeData ds s = some ⟨ds.index + 7 + s.length, ds.file ++ chunk 1 s⟩ := by
  have hpad : padTo ds = ds := by
    unfold padTo
    dsimp only
    rw [if_neg (by omega)]
  unfold writeData
  rw [hpad]
  unfold writeDataCore
  dsimp only
  rw [if_pos hfit]
  exact writeRecord_fits hfit

/-! ## Claim theorems for the log store -/

/-- C5: for every sequence of append calls, every `_write_record` call made by
`_write_data` satisfies the slice-fits precondition (modelled as `none` on
assertion failure), so append never fails for this internal reason. -/
theorem c5_write_record_precondition_unreachable (ds : DataStore) (s : List Nat) :
    (writeData ds s).isSome = true :=
  writeData_isSome ds s

/-- C3: at any write position, a payload with `len + 7` exactly equal to the
remaining block space is written as a single FULL chunk with no padding,
consuming `len + 7` bytes; a payload one byte larger is written as a FIRST
chunk plus a LAST chunk (zero MIDDLE chunks here) with no padding, consuming
`len + 2*7` bytes. -/
theorem c3_block_boundary (ds : DataStore) (s : List Nat) :
    (s.length + 7 = blockLen - ds.index % blockLen →
      writeData ds s = some ⟨ds.index + 7 + s.length, ds.file ++ chunk 1 s⟩) ∧
    (s.length + 7 = (blockLen - ds.index % blockLen) + 1 → 1 ≤ s.length →
      writeData ds s = some ⟨ds.index + s.length + 14,
        ds.file ++ (chunk 2 (s.take (s.length - 1)) ++ chunk 4 (s.drop (s.length - 1)))⟩) := by
  constructor
  · intro hexact
    exact writeData_full ds s (by omega) (by omega)
  · intro hover h1
    have hpad : padTo ds = ds := by
      unfold padTo
      dsimp only
      rw [if_neg (by omega)]
    unfold writeData
    rw [hpad]
    unfold writeDataCore
    dsimp only
    rw [if_neg (by omega)]
    have hroom : blockLen - ds.index % blockLen - 7 = s.length - 1 := by omega
    have htake : (s.take (s.length - 1)).length = s.length - 1 := by
      simp [List.length_take]
    rw [hroom]
    rw [writeRecord_fits (by rw [htake]; omega)]
    dsimp only
    rw [writeMiddles]
    have hdrop : (s.drop (s.length - 1)).length = 1 := by
      simp [List.length_drop]
      omega
    rw [dif_neg (by rw [hdrop]; norm_num [dataLen])]
    have hmod1 : (ds.index + 7 + (s.take (s.length - 1)).length) % blockLen = 0 := by
      rw [htake]
      have hl : ds.index % blockLen < blockLen := Nat.mod_lt _ (by norm_num [blockLen])
      simp only [blockLen] at *
      omega
    rw [writeRecord_fits (by rw [hmod1, hdrop]; norm_num [blockLen])]
    congr 1
    congr 1
    · dsimp only
      rw [htake, hdrop]
      omega
    · simp [List.append_assoc]

/-- Witness for C3 at a concrete write position 8 bytes before a block
boundary: a 1-byte payload fits exactly (single FULL chunk), a 2-byte payload
splits into FIRST and LAST. -/
theorem c3_block_boundary_witness :
    writeData ⟨32760, []⟩ [5] = some ⟨32768, chunk 1 [5]⟩ ∧
    writeData ⟨32760, []⟩ [5, 6] = some ⟨32776, chunk 2 [5] ++ chunk 4 [6]⟩ :=
  ⟨(c3_block_boundary ⟨32760, []⟩ [5]).1 (by decide),
   (c3_block_boundary ⟨32760, []⟩ [5, 6]).2 (by decide) (by decide)⟩

/-- C1 (amended): appending any sequence of payloads with `_write_data` on a
freshly opened log and then scanning with repeated `scan_data` reproduces
exactly the original payloads in order; the following `scan_data` returns a
clean end of stream when at least 7 bytes remain in the final block, and
reports a failed zero-padding assertion otherwise (instead of end-of-stream). -/
theorem c1_roundtrip (ps : List (List Nat)) (ds' : DataStore)
    (h : writeAll openWriteStore ps = some ds') :
    readHeader ds'.file = some 7 ∧
    scanPayloads ds'.file 7 ps.length = some (ps, ds'.index) ∧
    scanData ds'.file ds'.index
      = (if blockLen - ds'.index % blockLen < 7 then .fail else .eof) := by
  have hinv : openWriteStore.index = openWriteStore.file.length := rfl
  obtain ⟨hinv', ⟨d, hd⟩, hscan⟩ := writeAll_scan ps openWriteStore ds' hinv h
  refine ⟨?_, ?_, ?_⟩
  · rw [hd]
    exact readHeader_writer d
  · have hs := hscan []
    rw [List.append_nil] at hs
    exact hs
  · exact scanData_end ds'.file ds'.index (le_of_eq hinv'.symm)

/-- The store produced by the witness write for C1. -/
def c1WitnessStore : DataStore :=
  (writeAll openWriteStore [[1, 2], []]).getD freshStore

/-- Witness for C1 on the concrete payload sequence `[[1,2],[]]`. -/
theorem c1_roundtrip_witness :
    writeAll openWriteStore [[1, 2], []] = some c1WitnessStore ∧
    (readHeader c1WitnessStore.file = some 7 ∧
     scanPayloads c1WitnessStore.file 7 2 = some ([[1, 2], []], c1WitnessStore.index) ∧
     scanData c1WitnessStore.file c1WitnessStore.index
       = (if blockLen - c1WitnessStore.index % blockLen < 7 then .fail else .eof)) :=
  ⟨by decide, c1_roundtrip [[1, 2], []] c1WitnessStore (by decide)⟩

/-- Appending a single payload is one `_write_data` call. -/
theorem writeAll_singleton (ds : DataStore) (p : List Nat) :
    writeAll ds [p] = writeData ds p := by
  unfold writeAll
  cases h : writeData ds p
  · rfl
  · rfl

/-- Counterexample to C1 as stated: a single 32750-byte payload ends 4 bytes
short of a block boundary, and the subsequent `scan_data` raises a failed
zero-padding assertion (reading an empty pad at end of file) instead of
returning end-of-stream, although the payload itself is reproduced. -/
theorem c1_counterexample :
    (writeAll openWriteStore [List.replicate 32750 0]).elim False
      (fun ds' =>
        scanPayloads ds'.file 7 1 = some ([List.replicate 32750 0], ds'.index) ∧
        scanData ds'.file ds'.index = .fail) := by
  have hlen : (List.replicate 32750 (0 : Nat)).length = 32750 := List.length_replicate 32750 0
  have hwd : writeData openWriteStore (List.replicate 32750 0)
      = some ⟨32764, headerBytes ++ chunk 1 (List.replicate 32750 0)⟩ := by
    have h := writeData_full openWriteStore (List.replicate 32750 0)
      (by decide) (by rw [hlen]; decide)
    rw [hlen] at h
    refine h.trans ?_
    congr 1
  have hw : writeAll openWriteStore [List.replicate 32750 0]
      = some ⟨32764, headerBytes ++ chunk 1 (List.replicate 32750 0)⟩ :=
    (writeAll_singleton openWriteStore (List.replicate 32750 0)).trans hwd
  rw [hw]
  dsimp only [Option.elim]
  constructor
  · obtain ⟨hinv', ⟨d, hd⟩, hscan⟩ :=
      writeAll_scan [List.replicate 32750 0] openWriteStore _ rfl hw
    have hs := hscan []
    rw [List.append_nil] at hs
    exact hs
  · have hflen : (headerBytes ++ chunk 1 (List.replicate 32750 0)).length = 32764 := by
      rw [List.length_append, length_chunk, hlen]
      rfl
    have hend := scanData_end (headerBytes ++ chunk 1 (List.replicate 32750 0)) 32764
      (le_of_eq hflen)
    rw [if_pos (by decide)] at hend
    exact hend

/-! ## CRC-32 detects single-bit flips -/

/-- XOR of two 32-bit values is a 32-bit value. -/
theorem xor_lt_width {x y : Nat} (hx : x < 4294967296) (hy : y < 4294967296) :
    x ^^^ y < 4294967296 := by
  have h1 : x < 2 ^ 32 := by norm_num; omega
  have h2 : y < 2 ^ 32 := by norm_num; omega
  have h3 := Nat.xor_lt_two_pow h1 h2
  norm_num at h3
  omega

theorem crcStep_lt {c : Nat} (h : c < 4294967296) : crcStep c < 4294967296 := by
  unfold crcStep
  split
  · exact xor_lt_width (by omega) (by norm_num [crcPoly])
  · omega

/-- One CRC bit step is injective on 32-bit states: the polynomial has its top
bit set, so the two parity branches cannot collide. -/
theorem crcStep_inj {c1 c2 : Nat} (h1 : c1 < 4294967296) (h2 : c2 < 4294967296)
    (h : crcStep c1 = crcStep c2) : c1 = c2 := by
  unfold crcStep at h
  rcases Nat.mod_two_eq_zero_or_one c1 with hp1 | hp1 <;>
    rcases Nat.mod_two_eq_zero_or_one c2 with hp2 | hp2
  · rw [if_neg (by omega), if_neg (by omega)] at h
    omega
  · rw [if_neg (by omega), if_pos hp2] at h
    exfalso
    have ht1 : (c1 / 2).testBit 31 = false := Nat.testBit_lt_two_pow (by norm_num; omega)
    have ht2 : ((c2 / 2) ^^^ crcPoly).testBit 31 = true := by
      rw [Nat.testBit_xor, Nat.testBit_lt_two_pow (by norm_num; omega),
        show crcPoly.testBit 31 = true by decide]
      rfl
    rw [h, ht2] at ht1
    exact absurd ht1 (by simp)
  · rw [if_pos hp1, if_neg (by omega)] at h
    exfalso
    have ht1 : (c2 / 2).testBit 31 = false := Nat.testBit_lt_two_pow (by norm_num; omega)
    have ht2 : ((c1 / 2) ^^^ crcPoly).testBit 31 = true := by
      rw [Nat.testBit_xor, Nat.testBit_lt_two_pow (by norm_num; omega),
        show crcPoly.testBit 31 = true by decide]
      rfl
    rw [← h, ht2] at ht1
    exact absurd ht1 (by simp)
  · rw [if_pos hp1, if_pos hp2] at h
    have h3 := congrArg (· ^^^ crcPoly) h
    simp only [Nat.xor_cancel_right] at h3
    omega

theorem crcByte_lt {c b : Nat} (h : c ^^^ b < 4294967296) : crcByte c b < 4294967296 := by
  unfold crcByte
  exact crcStep_lt (crcStep_lt (crcStep_lt (crcStep_lt (crcStep_lt (crcStep_lt
    (crcStep_lt (crcStep_lt h)))))))

/-- Processing one byte is injective in the XORed state. -/
theorem crcByte_ne {c1 b1 c2 b2 : Nat} (h1 : c1 ^^^ b1 < 4294967296)
    (h2 : c2 ^^^ b2 < 4294967296) (hne : c1 ^^^ b1 ≠ c2 ^^^ b2) :
    crcByte c1 b1 ≠ crcByte c2 b2 := by
  unfold crcByte
  intro heq
  apply hne
  have a1 := crcStep_lt h1
  have a2 := crcStep_lt a1
  have a3 := crcStep_lt a2
  have a4 := crcStep_lt a3
  have a5 := crcStep_lt a4
  have a6 := crcStep_lt a5
  have a7 := crcStep_lt a6
  have c1' := crcStep_lt h2
  have c2' := crcStep_lt c1'
  have c3' := crcStep_lt c2'
  have c4' := crcStep_lt c3'
  have c5' := crcStep_lt c4'
  have c6' := crcStep_lt c5'
  have c7' := crcStep_lt c6'
  exact crcStep_inj h1 h2 (crcStep_inj a1 c1' (crcStep_inj a2 c2' (crcStep_inj a3 c3'
    (crcStep_inj a4 c4' (crcStep_inj a5 c5' (crcStep_inj a6 c6'
      (crcStep_inj a7 c7' heq)))))))

theorem crcRaw_lt : ∀ (l : List Nat) (c : Nat), c < 4294967296 → (∀ x ∈ l, x < 256) →
    crcRaw c l < 4294967296 := by
  intro l
  induction l with
  | nil => intro c hc _; simpa [crcRaw] using hc
  | cons x xs ih =>
    intro c hc hl
    simp only [crcRaw, List.foldl_cons]
    have hx : x < 4294967296 := by have := hl x (by simp); omega
    exact ih (crcByte c x) (crcByte_lt (xor_lt_width hc hx))
      (fun y hy => hl y (List.mem_cons_of_mem x hy))

/-- Running the CRC over a common byte suffix preserves distinctness of
32-bit states. -/
theorem crcRaw_ne : ∀ (l : List Nat) {c1 c2 : Nat}, c1 < 4294967296 → c2 < 4294967296 →
    (∀ x ∈ l, x < 256) → c1 ≠ c2 → crcRaw c1 l ≠ crcRaw c2 l := by
  intro l
  induction l with
  | nil => intro c1 c2 _ _ _ hne; simpa [crcRaw] using hne
  | cons x xs ih =>
    intro c1 c2 hc1 hc2 hl hne
    simp only [crcRaw, List.foldl_cons]
    have hx : x < 4294967296 := by have := hl x (by simp); omega
    have hxne : c1 ^^^ x ≠ c2 ^^^ x := by
      intro hcontra
      apply hne
      have h3 := congrArg (· ^^^ x) hcontra
      simpa only [Nat.xor_cancel_right] using h3
    exact ih (crcByte_lt (xor_lt_width hc1 hx)) (crcByte_lt (xor_lt_width hc2 hx))
      (fun y hy => hl y (List.mem_cons_of_mem x hy))
      (crcByte_ne (xor_lt_width hc1 hx) (xor_lt_width hc2 hx) hxne)

/-- Flipping bits of one byte of the input changes the CRC-32. -/
theorem crc32_flip_ne (pre suf : List Nat) (b e seed : Nat)
    (hpre : ∀ x ∈ pre, x < 256) (hb : b < 256) (hsuf : ∀ x ∈ suf, x < 256)
    (he : e ≠ 0) (he2 : e < 256) (hs : seed < 4294967296) :
    crc32 (pre ++ (b ^^^ e) :: suf) seed ≠ crc32 (pre ++ b :: suf) seed := by
  unfold crc32
  intro heq
  have heq2 : crcRaw (seed ^^^ 0xFFFFFFFF) (pre ++ (b ^^^ e) :: suf)
      = crcRaw (seed ^^^ 0xFFFFFFFF) (pre ++ b :: suf) := by
    have h3 := congrArg (· ^^^ 0xFFFFFFFF) heq
    simpa only [Nat.xor_cancel_right] using h3
  have hsplit : ∀ y, crcRaw (seed ^^^ 0xFFFFFFFF) (pre ++ y :: suf)
      = crcRaw (crcByte (crcRaw (seed ^^^ 0xFFFFFFFF) pre) y) suf := by
    intro y
    simp [crcRaw, List.foldl_append]
  rw [hsplit, hsplit] at heq2
  have hc0 : crcRaw (seed ^^^ 0xFFFFFFFF) pre < 4294967296 :=
    crcRaw_lt pre _ (xor_lt_width hs (by norm_num)) hpre
  set c0 := crcRaw (seed ^^^ 0xFFFFFFFF) pre
  have hbe : b ^^^ e < 4294967296 := xor_lt_width (by omega) (by omega)
  have hblt : b < 4294967296 := by omega
  have hbne : c0 ^^^ (b ^^^ e) ≠ c0 ^^^ b := by
    intro hx
    have h4 : b ^^^ e = b := by
      have h5 := congrArg (fun z => c0 ^^^ z) hx
      simpa only [Nat.xor_cancel_left] using h5
    apply he
    calc e = b ^^^ (b ^^^ e) := (Nat.xor_cancel_left b e).symm
    _ = b ^^^ b := by rw [h4]
    _ = 0 := Nat.xor_self b
  exact crcRaw_ne suf (crcByte_lt (xor_lt_width hc0 hbe)) (crcByte_lt (xor_lt_width hc0 hblt))
    hsuf (crcByte_ne (xor_lt_width hc0 hbe) (xor_lt_width hc0 hblt) hbne) heq2

/-- Every CRC seed in the `self._crc` table is a 32-bit value. -/
theorem crcSeed_lt (t : Nat) : crcSeed t < 4294967296 := by
  unfold crcSeed
  split
  · norm_num
  · exact Nat.mod_lt _ (by norm_num)

/-- Decompose a list at an index into the part before, the element there, and
the part after. -/
theorem eq_take_getD_drop : ∀ (l : List Nat) (n : Nat), n < l.length →
    l = l.take n ++ l.getD n 0 :: l.drop (n + 1) := by
  intro l
  induction l with
  | nil => intro n h; simp at h
  | cons x xs ih =>
    intro n h
    cases n with
    | zero => simp
    | succ m =>
      simp only [List.take_succ_cons, List.drop_succ_cons, List.getD_cons_succ,
        List.cons_append]
      exact congrArg (x :: ·) (ih m (by simpa using h))

/-- `scan_record` raises (assertion failure) when the stored checksum does not
match the checksum recomputed over the data read. -/
theorem scanRecord_mismatch {f : List Nat} {ix : Nat}
    (hlen7 : (readBytes f ix 7).length = 7)
    (hdt4 : (readBytes f ix 7).getD 6 0 ≤ 4)
    (hck : ¬ unpackU32 ((readBytes f ix 7).take 4)
      = crc32 (readBytes f (ix + 7) (unpackU16 ((readBytes f ix 7).drop 4 |>.take 2)))
          (crcSeed ((readBytes f ix 7).getD 6 0)) % 4294967296) :
    scanRecord f ix = .fail := by
  unfold scanRecord
  dsimp only
  rw [if_neg (by simp [hlen7]), if_pos hlen7, if_pos hdt4, if_neg hck]

/-- Inversion of a successful `scan_record`: the header was fully read, the
type and payload are the decoded fields, and the stored CRC32 matches the one
recomputed over the payload seeded by the chunk type. -/
theorem scanRecord_ok_inv {f : List Nat} {ix t : Nat} {d : List Nat} {ix' : Nat}
    (h : scanRecord f ix = .ok (t, d) ix') :
    (readBytes f ix 7).length = 7 ∧
    t = (readBytes f ix 7).getD 6 0 ∧ t ≤ 4 ∧
    d = readBytes f (ix + 7) (unpackU16 ((readBytes f ix 7).drop 4 |>.take 2)) ∧
    ix' = ix + 7 + unpackU16 ((readBytes f ix 7).drop 4 |>.take 2) ∧
    unpackU32 ((readBytes f ix 7).take 4) = crc32 d (crcSeed t) % 4294967296 := by
  unfold scanRecord at h
  dsimp only at h
  split at h
  · exact absurd h (by simp)
  · split at h
    · next hlen7 =>
      split at h
      · next hdt4 =>
        split at h
        · next hceq =>
          obtain ⟨h1, h2⟩ := ScanOut.ok.inj h
          obtain ⟨ht, hd⟩ := Prod.mk.inj h1
          exact ⟨hlen7, ht.symm, ht ▸ hdt4, hd.symm, h2.symm, by rw [ht, hd] at hceq; exact hceq⟩
        · exact absurd h (by simp)
      · exact absurd h (by simp)
    · exact absurd h (by simp)

/-- C4: flipping any set of bits inside one payload byte of a valid chunk on
disk makes `scan_record` report a checksum failure (a failed assert) on that
chunk instead of silently returning a wrong payload. -/
theorem c4_corruption_detection (f : List Nat) (ix j k t : Nat) (d : List Nat) (ix' : Nat)
    (hf : ∀ x ∈ f, x < 256)
    (h : scanRecord f ix = .ok (t, d) ix') (hj : j < d.length) (hk : k < 8) :
    scanRecord (f.set (ix + 7 + j) (f.getD (ix + 7 + j) 0 ^^^ 2 ^ k)) ix = .fail := by
  obtain ⟨hlen7, ht, hdt4, hd, hix, hck⟩ := scanRecord_ok_inv h
  set L := unpackU16 ((readBytes f ix 7).drop 4 |>.take 2) with hLdef
  have hdlen : d.length = min L (f.length - (ix + 7)) := by
    rw [hd]
    simp [readBytes, List.length_take, List.length_drop]
  have hjL : j < L := by omega
  have hpos : ix + 7 + j < f.length := by omega
  set b := f.getD (ix + 7 + j) 0 with hbdef
  set A := f.take (ix + 7 + j) with hAdef
  set B := f.drop (ix + 7 + j + 1) with hBdef
  have hA : A.length = ix + 7 + j := by
    rw [hAdef, List.length_take]
    omega
  have hfdec : f = A ++ b :: B := eq_take_getD_drop f (ix + 7 + j) hpos
  have hfset : f.set (ix + 7 + j) (b ^^^ 2 ^ k) = A ++ (b ^^^ 2 ^ k) :: B :=
    List.set_eq_take_cons_drop _ hpos
  have hreadhead : ∀ X : List Nat, readBytes (A ++ X) ix 7 = (A.drop ix).take 7 := by
    intro X
    unfold readBytes
    rw [List.drop_append_of_le_length (by omega)]
    rw [List.take_append_eq_append_take]
    rw [show 7 - (A.drop ix).length = 0 by simp only [List.length_drop, hA]; omega]
    rw [List.take_zero, List.append_nil]
  have hH : readBytes f ix 7 = (A.drop ix).take 7 := by
    conv_lhs => rw [hfdec]
    exact hreadhead (b :: B)
  have hHeq : readBytes (A ++ (b ^^^ 2 ^ k) :: B) ix 7 = readBytes f ix 7 :=
    (hreadhead ((b ^^^ 2 ^ k) :: B)).trans hH.symm
  have hreaddata : ∀ y : Nat, readBytes (A ++ y :: B) (ix + 7) L
      = A.drop (ix + 7) ++ y :: B.take (L - j - 1) := by
    intro y
    unfold readBytes
    rw [List.drop_append_of_le_length (by omega)]
    rw [List.take_append_eq_append_take]
    have hlenA : (A.drop (ix + 7)).length = j := by
      simp only [List.length_drop, hA]
      omega
    rw [List.take_of_length_le (by omega)]
    rw [hlenA]
    obtain ⟨m, hm⟩ : ∃ m, L - j = m + 1 := ⟨L - j - 1, by omega⟩
    rw [hm, List.take_succ_cons]
    simp only [Nat.add_sub_cancel]
  have hD : readBytes f (ix + 7) L = A.drop (ix + 7) ++ b :: B.take (L - j - 1) := by
    conv_lhs => rw [hfdec]
    exact hreaddata b
  -- byte bounds
  have hmemA : ∀ x ∈ A.drop (ix + 7), x < 256 := fun x hx =>
    hf x (List.mem_of_mem_take (List.mem_of_mem_drop hx))
  have hmemb : b < 256 := by
    refine hf b ?_
    rw [hfdec]
    exact List.mem_append_right _ (List.mem_cons_self _ _)
  have hmemS : ∀ x ∈ B.take (L - j - 1), x < 256 := fun x hx =>
    hf x (List.mem_of_mem_drop (List.mem_of_mem_take hx))
  have hek : (2 : Nat) ^ k < 256 := by
    calc (2 : Nat) ^ k < 2 ^ 8 := Nat.pow_lt_pow_right (by norm_num) hk
    _ = 256 := by norm_num
  have hbK : b ^^^ 2 ^ k < 256 := by
    have h1 : b < 2 ^ 8 := by norm_num; omega
    have h2 : (2 : Nat) ^ k < 2 ^ 8 := by norm_num; omega
    have h3 := Nat.xor_lt_two_pow h1 h2
    norm_num at h3
    exact h3
  -- the flipped CRC differs from the stored one
  have hcrcne := crc32_flip_ne (A.drop (ix + 7)) (B.take (L - j - 1)) b (2 ^ k)
    (crcSeed t) hmemA hmemb hmemS (Nat.two_pow_pos k).ne' hek (crcSeed_lt t)
  have hbytes1 : ∀ x ∈ A.drop (ix + 7) ++ (b ^^^ 2 ^ k) :: B.take (L - j - 1), x < 256 := by
    intro x hx
    rcases List.mem_append.mp hx with hx1 | hx2
    · exact hmemA x hx1
    · rcases List.mem_cons.mp hx2 with rfl | hx3
      · exact hbK
      · exact hmemS x hx3
  have hbytes2 : ∀ x ∈ A.drop (ix + 7) ++ b :: B.take (L - j - 1), x < 256 := by
    intro x hx
    rcases List.mem_append.mp hx with hx1 | hx2
    · exact hmemA x hx1
    · rcases List.mem_cons.mp hx2 with rfl | hx3
      · exact hmemb
      · exact hmemS x hx3
  have hlt1 : crc32 (A.drop (ix + 7) ++ (b ^^^ 2 ^ k) :: B.take (L - j - 1)) (crcSeed t)
      < 4294967296 := by
    unfold crc32
    exact xor_lt_width
      (crcRaw_lt _ _ (xor_lt_width (crcSeed_lt t) (by norm_num)) hbytes1) (by norm_num)
  have hlt2 : crc32 (A.drop (ix + 7) ++ b :: B.take (L - j - 1)) (crcSeed t) < 4294967296 := by
    unfold crc32
    exact xor_lt_width
      (crcRaw_lt _ _ (xor_lt_width (crcSeed_lt t) (by norm_num)) hbytes2) (by norm_num)
  have hmodne : crc32 (A.drop (ix + 7) ++ (b ^^^ 2 ^ k) :: B.take (L - j - 1)) (crcSeed t)
      % 4294967296
      ≠ crc32 (A.drop (ix + 7) ++ b :: B.take (L - j - 1)) (crcSeed t) % 4294967296 := by
    rw [Nat.mod_eq_of_lt hlt1, Nat.mod_eq_of_lt hlt2]
    exact hcrcne
  rw [hfset]
  apply scanRecord_mismatch
  · rw [hHeq]
    exact hlen7
  · rw [hHeq]
    rw [← ht]
    exact hdt4
  · rw [hHeq]
    rw [← hLdef, hreaddata (b ^^^ 2 ^ k), ← ht, hck, hd, hD]
    exact hmodne.symm

/-- Witness for C4: a concrete FULL chunk with payload `[7]`, flipping bit 0 of
the payload byte. -/
theorem c4_corruption_witness :
    scanRecord (chunk 1 [7]) 0 = .ok (1, [7]) 8 ∧
    scanRecord ((chunk 1 [7]).set 7 ((chunk 1 [7]).getD 7 0 ^^^ 2 ^ 0)) 0 = .fail :=
  ⟨by decide,
   c4_corruption_detection (chunk 1 [7]) 0 0 0 1 [7] 8 (by decide) (by decide)
     (by decide) (by decide)⟩

/-- The `scan_data` accumulation loop at a position at or past end of file
returns a clean end of stream, discarding the accumulator. -/
theorem scanDataLoop_eof (f : List Nat) (ix : Nat) (acc : List Nat) (h : f.length ≤ ix) :
    scanDataLoop f ix acc = .eof := by
  rw [scanDataLoop]
  split
  · rfl
  · next heq =>
    rw [scanRecord_eof h] at heq
    exact absurd heq (by simp)
  · next dtype newData ix1 heq =>
    rw [scanRecord_eof h] at heq
    exact absurd heq (by simp)

/-- C10: when the log file ends right after a FIRST chunk (or after FIRST plus
some MIDDLE chunks, i.e. at any point inside the accumulation loop) without a
terminal LAST chunk, `scan_data` returns end-of-stream (`None`), silently
discarding the accumulated partial payload, rather than raising a corruption
error. -/
theorem c10_truncated_split_record :
    (∀ (f : List Nat) (ix : Nat) (d : List Nat) (ix' : Nat),
      7 ≤ blockLen - ix % blockLen →
      scanRecord f ix = .ok (2, d) ix' → f.length ≤ ix' →
      scanData f ix = .eof) ∧
    (∀ (f : List Nat) (ix : Nat) (acc : List Nat), f.length ≤ ix →
      scanDataLoop f ix acc = .eof) := by
  constructor
  · intro f ix d ix' hsp hscan hlen
    unfold scanData
    dsimp only
    rw [if_neg (by omega)]
    unfold scanDataRest
    rw [hscan]
    dsimp only
    rw [if_neg (by decide), if_pos rfl]
    exact scanDataLoop_eof f ix' d hlen
  · exact fun f ix acc h => scanDataLoop_eof f ix acc h

/-- Witness for C10: a file holding exactly one FIRST chunk with payload `[5]`,
ending immediately after it; and the loop itself at end of file. -/
theorem c10_truncated_split_record_witness :
    (7 ≤ blockLen - 0 % blockLen ∧ scanRecord (chunk 2 [5]) 0 = .ok (2, [5]) 8 ∧
      (chunk 2 [5]).length ≤ 8 ∧ scanData (chunk 2 [5]) 0 = .eof) ∧
    (([] : List Nat).length ≤ 0 ∧ scanDataLoop [] 0 [] = .eof) :=
  ⟨⟨by decide, by decide, by decide,
    c10_truncated_split_record.1 (chunk 2 [5]) 0 [5] 8 (by decide) (by decide) (by decide)⟩,
   ⟨by decide, c10_truncated_split_record.2 [] 0 [] (by decide)⟩⟩

/-- C9 (code behaviour at the failing input): `open_for_append` opens the file
with mode `"wb"`, truncating it — the prior contents are discarded and the
writer restarts with an empty file and index 0 — while `open_for_write` does
fail (`"xb"`) when the file exists. -/
theorem c9_open_for_append_truncates :
    openForAppend (some (headerBytes ++ chunk 1 [1])) = freshStore ∧
    (openForAppend (some (headerBytes ++ chunk 1 [1]))).file = [] ∧
    (openForAppend (some (headerBytes ++ chunk 1 [1]))).index = 0 ∧
    openForWrite (some (headerBytes ++ chunk 1 [1])) = none :=
  ⟨rfl, rfl, rfl, rfl⟩

end Datastore

/-! ## Python dict model

Assoc-list model of a Python `dict` with string keys: lookup/assignment/`del`
act on the first occurrence of a key; well-formed (reachable) dicts have no
duplicate keys. -/

namespace PyDict

/-- `d[k]`, as an `Option`: `none` is a `KeyError`. -/
def lookupEntry {α : Type} : List (String × α) → String → Option α
  | [], _ => none
  | (k', v) :: rest, k => if k' = k then some v else lookupEntry rest k

/-- `d[k] = v`: replace the value of an existing key in place, else append. -/
def setEntry {α : Type} : List (String × α) → String → α → List (String × α)
  | [], k, v => [(k, v)]
  | (k', v') :: rest, k, v =>
    if k' = k then (k, v) :: rest else (k', v') :: setEntry rest k v

/-- `del d[k]`, as an `Option`: `none` is a `KeyError`. -/
def delEntry {α : Type} : List (String × α) → String → Option (List (String × α))
  | [], _ => none
  | (k', v) :: rest, k =>
    if k' = k then some rest else (delEntry rest k).map (fun nd => (k', v) :: nd)

/-- `base.update(upd)`: assign every entry of `upd` into `base`, in order. -/
def dictUpdate {α : Type} (base upd : List (String × α)) : List (String × α) :=
  upd.foldl (fun acc kv => setEntry acc kv.1 kv.2) base

theorem lookupEntry_setEntry_self {α : Type} (d : List (String × α)) (k : String) (v : α) :
    lookupEntry (setEntry d k v) k = some v := by
  induction d with
  | nil => simp [setEntry, lookupEntry]
  | cons kv rest ih =>
    obtain ⟨k', v'⟩ := kv
    by_cases h : k' = k
    · simp [setEntry, lookupEntry, h]
    · simp [setEntry, lookupEntry, h, ih]

theorem lookupEntry_setEntry_ne {α : Type} (d : List (String × α)) {k k' : String} (v : α)
    (h : k' ≠ k) : lookupEntry (setEntry d k v) k' = lookupEntry d k' := by
  induction d with
  | nil => simp [setEntry, lookupEntry, Ne.symm h]
  | cons kv rest ih =>
    obtain ⟨k0, v0⟩ := kv
    by_cases h0 : k0 = k
    · subst h0
      simp [setEntry, lookupEntry, Ne.symm h]
    · simp [setEntry, lookupEntry, h0, ih]

theorem setEntry_setEntry_self {α : Type} (d : List (String × α)) (k : String) (v : α) :
    setEntry (setEntry d k v) k v = setEntry d k v := by
  induction d with
  | nil => simp [setEntry]
  | cons kv rest ih =>
    obtain ⟨k', v'⟩ := kv
    by_cases h : k' = k
    · simp [setEntry, h]
    · simp [setEntry, h, ih]

theorem lookupEntry_eq_none_of_not_mem {α : Type} (d : List (String × α)) (k : String)
    (h : k ∉ d.map Prod.fst) : lookupEntry d k = none := by
  induction d with
  | nil => rfl
  | cons kv rest ih =>
    obtain ⟨k', v'⟩ := kv
    simp only [List.map_cons, List.mem_cons] at h
    push_neg at h
    simp [lookupEntry, Ne.symm h.1, ih h.2]

/-- Assigning into a dict with no duplicate keys and then deleting the same key
succeeds and leaves the key absent. -/
theorem delEntry_setEntry {α : Type} (d : List (String × α)) (k : String) (v : α)
    (hnd : (d.map Prod.fst).Nodup) :
    ∃ d2, delEntry (setEntry d k v) k = some d2 ∧ lookupEntry d2 k = none := by
  induction d with
  | nil => exact ⟨[], by simp [setEntry, delEntry], rfl⟩
  | cons kv rest ih =>
    obtain ⟨k', v'⟩ := kv
    simp only [List.map_cons, List.nodup_cons] at hnd
    by_cases h : k' = k
    · subst h
      refine ⟨rest, by simp [setEntry, delEntry], ?_⟩
      exact lookupEntry_eq_none_of_not_mem rest k' hnd.1
    · obtain ⟨d2, hdel, hlook⟩ := ih hnd.2
      refine ⟨(k', v') :: d2, ?_, ?_⟩
      · simp [setEntry, delEntry, h, hdel]
      · simp [lookupEntry, h, hlook]

theorem lookupEntry_dictUpdate_not_mem {α : Type} (upd : List (String × α)) (k : String)
    (h : k ∉ upd.map Prod.fst) :
    ∀ base, lookupEntry (dictUpdate base upd) k = lookupEntry base k := by
  induction upd with
  | nil => intro base; rfl
  | cons kv rest ih =>
    intro base
    obtain ⟨k1, v1⟩ := kv
    simp only [List.map_cons, List.mem_cons] at h
    push_neg at h
    show lookupEntry (dictUpdate (setEntry base k1 v1) rest) k = _
    rw [ih h.2 (setEntry base k1 v1)]
    exact lookupEntry_setEntry_ne base v1 h.1

/-- `dict.update` gives the update's values precedence for keys it contains. -/
theorem lookupEntry_dictUpdate_mem {α : Type} (upd : List (String × α)) {k : String} {v : α}
    (hnd : (upd.map Prod.fst).Nodup) (h : lookupEntry upd k = some v) :
    ∀ base, lookupEntry (dictUpdate base upd) k = some v := by
  induction upd with
  | nil => exact absurd h (by simp [lookupEntry])
  | cons kv rest ih =>
    intro base
    obtain ⟨k1, v1⟩ := kv
    simp only [List.map_cons, List.nodup_cons] at hnd
    show lookupEntry (dictUpdate (setEntry base k1 v1) rest) k = some v
    by_cases hk : k1 = k
    · subst hk
      have hv : v1 = v := by simpa [lookupEntry] using h
      rw [lookupEntry_dictUpdate_not_mem rest k1 hnd.1 (setEntry base k1 v1)]
      rw [lookupEntry_setEntry_self, hv]
    · have h2 : lookupEntry rest k = some v := by simpa [lookupEntry, hk] using h
      exact ih hnd.2 h2 (setEntry base k1 v1)

end PyDict

/-! ## Record router (`HandleManager`, `wandb/sdk_py27/internal/handler.py`) -/

namespace Handler

/-- The record control flags used by `_dispatch_record` (`record.control.local`). -/
structure RecControl where
  localFlag : Bool
deriving DecidableEq, Repr

/-- A routed record: an opaque id plus its control flags. -/
structure Rec where
  id : Nat
  control : RecControl
deriving DecidableEq, Repr

/-- `HandleManager._dispatch_record(record, always_send)`: put the record on
the sender queue unless the run is offline (or `always_send` forces it), and
put it on the writer (durable log) queue unless `record.control.local`.
Returns the updated `(sender_q, writer_q)`. -/
def dispatchRecord (offline : Bool) (r : Rec) (alwaysSend : Bool)
    (senderQ writerQ : List Rec) : List Rec × List Rec :=
  ((if !offline || alwaysSend then senderQ ++ [r] else senderQ),
   (if !r.control.localFlag then writerQ ++ [r] else writerQ))

open PyDict

/-- A consolidated-summary value: either an opaque parsed JSON scalar or a
nested dict. -/
inductive SVal where
  | prim : String → SVal
  | dict : List (String × SVal) → SVal

/-- One summary update item of `handle_summary`: walk `key[:-1]` through the
nested dicts (`target = target[prop]`; a missing key or a non-dict value is a
raised error) and assign the parsed value at the last key. -/
def setPath : List (String × SVal) → List String → SVal → Option (List (String × SVal))
  | _, [], _ => none
  | d, [k], v => some (setEntry d k v)
  | d, k :: k2 :: rest, v =>
    match lookupEntry d k with
    | some (.dict d') =>
      (setPath d' (k2 :: rest) v).map (fun nd => setEntry d k (SVal.dict nd))
    | _ => none

/-- One summary remove item of `handle_summary`: walk `key[:-1]`, then
`del target[key[-1]]`. -/
def delPath : List (String × SVal) → List String → Option (List (String × SVal))
  | _, [] => none
  | d, [k] => delEntry d k
  | d, k :: k2 :: rest =>
    match lookupEntry d k with
    | some (.dict d') =>
      (delPath d' (k2 :: rest)).map (fun nd => setEntry d k (SVal.dict nd))
    | _ => none

/-- Read the value at a key path of the consolidated summary. -/
def getPath : List (String × SVal) → List String → Option SVal
  | _, [] => none
  | d, [k] => lookupEntry d k
  | d, k :: k2 :: rest =>
    match lookupEntry d k with
    | some (.dict d') => getPath d' (k2 :: rest)
    | _ => none

/-- The dicts traversed along a key path have no duplicate keys (true of every
state reachable through Python dicts). -/
def wfAlong : List (String × SVal) → List String → Bool
  | _, [] => true
  | d, k :: rest =>
    decide ((d.map Prod.fst).Nodup) &&
      (match lookupEntry d k with
       | some (.dict d') => wfAlong d' rest
       | _ => true)

end Handler

namespace Handler

open PyDict

/-- C6 counterexample: with the run online, a record marked `control.local`
handled under the default policy (`always_send = False`) is NOT forwarded to
the durable-write queue — it goes only to the sender queue. -/
theorem c6_counterexample :
    (dispatchRecord false ⟨0, ⟨true⟩⟩ false [] []).2 = [] ∧
    (dispatchRecord false ⟨0, ⟨true⟩⟩ false [] []).2 ≠ [⟨0, ⟨true⟩⟩] := by
  decide

/-- C6 (amended): under the default routing policy a record is forwarded to
the durable-write queue exactly when it is not marked `control.local`, and to
the network-sender queue exactly when the run is online. -/
theorem c6_default_routing (offline : Bool) (r : Rec) (sq wq : List Rec) :
    ((dispatchRecord offline r false sq wq).2 = wq ++ [r] ↔ r.control.localFlag = false) ∧
    ((dispatchRecord offline r false sq wq).1 = sq ++ [r] ↔ offline = false) := by
  unfold dispatchRecord
  constructor
  · cases hb : r.control.localFlag <;> simp
  · cases hb : offline <;> simp

/-- C7: applying the same summary update item twice leaves the consolidated
summary as after one application; applying an update and then a remove for the
same key path succeeds and leaves the key path absent.  (`wfAlong` is the
no-duplicate-keys invariant of dicts reachable in Python.) -/
theorem c7_summary_idempotence :
    ∀ (path : List String) (d : List (String × SVal)) (v : SVal) (d' : List (String × SVal)),
      wfAlong d path = true → setPath d path v = some d' →
      setPath d' path v = some d' ∧
      ∃ d2, delPath d' path = some d2 ∧ getPath d2 path = none := by
  intro path
  induction path with
  | nil =>
    intro d v d' _ h
    exact absurd h (by simp [setPath])
  | cons k rest ih =>
    intro d v d' hwf h
    cases rest with
    | nil =>
      simp only [setPath] at h
      obtain rfl : setEntry d k v = d' := Option.some.inj h
      have hnd : (d.map Prod.fst).Nodup := by
        simp only [wfAlong, Bool.and_eq_true, decide_eq_true_eq] at hwf
        exact hwf.1
      refine ⟨by simp [setPath, setEntry_setEntry_self], ?_⟩
      obtain ⟨d2, hdel, hlook⟩ := delEntry_setEntry d k v hnd
      exact ⟨d2, by simpa [delPath] using hdel, by simpa [getPath] using hlook⟩
    | cons k2 rest2 =>
      simp only [setPath] at h
      split at h
      · next d0 heq =>
        cases hset : setPath d0 (k2 :: rest2) v with
        | none => rw [hset] at h; exact absurd h (by simp)
        | some ndk =>
          rw [hset] at h
          simp only [Option.map_some'] at h
          obtain rfl : setEntry d k (SVal.dict ndk) = d' := Option.some.inj h
          have hwf2 : wfAlong d0 (k2 :: rest2) = true := by
            simp only [wfAlong, Bool.and_eq_true, decide_eq_true_eq] at hwf
            have := hwf.2
            rw [heq] at this
            exact this
          obtain ⟨hidem, d2, hdel2, habs2⟩ := ih d0 v ndk hwf2 hset
          have hlookup : lookupEntry (setEntry d k (SVal.dict ndk)) k = some (SVal.dict ndk) :=
            lookupEntry_setEntry_self d k (SVal.dict ndk)
          constructor
          · simp only [setPath, hlookup, hidem, Option.map_some']
            rw [setEntry_setEntry_self]
          · refine ⟨setEntry (setEntry d k (SVal.dict ndk)) k (SVal.dict d2), ?_, ?_⟩
            · simp only [delPath, hlookup, hdel2, Option.map_some']
            · simp only [getPath, lookupEntry_setEntry_self]
              exact habs2
      · exact absurd h (by simp)

/-- Witness for C7 at a concrete one-key path on the empty summary. -/
theorem c7_summary_idempotence_witness :
    wfAlong ([] : List (String × SVal)) ["acc"] = true ∧
    setPath ([] : List (String × SVal)) ["acc"] (.prim "1") = some [("acc", SVal.prim "1")] ∧
    (setPath [("acc", SVal.prim "1")] ["acc"] (.prim "1") = some [("acc", SVal.prim "1")] ∧
     ∃ d2, delPath [("acc", SVal.prim "1")] ["acc"] = some d2 ∧ getPath d2 ["acc"] = none) :=
  ⟨rfl, rfl, c7_summary_idempotence ["acc"] [] (.prim "1") [("acc", SVal.prim "1")] rfl rfl⟩

end Handler

/-! ## Sender (`SendManager`, `wandb/sdk/internal/sender.py`) -/

namespace Sender

open PyDict

/-- Modelled from the spec: the `DeferRequest` state enum values.  The proto
definition (`wandb.proto`) is not among the sources; the spec fixes the order
BEGIN → FLUSH_STATS → FLUSH_TB → FLUSH_SUM → FLUSH_DIR → FLUSH_FP → FLUSH_FS
→ FLUSH_FINAL → END, so the states are modelled as 0..8 in that order. -/
def deferBegin : Nat := 0

/-- `FLUSH_STATS` -/
def deferFlushStats : Nat := 1

/-- `FLUSH_TB` -/
def deferFlushTB : Nat := 2

/-- `FLUSH_SUM` -/
def deferFlushSum : Nat := 3

/-- `FLUSH_DIR` -/
def deferFlushDir : Nat := 4

/-- `FLUSH_FP` -/
def deferFlushFP : Nat := 5

/-- `FLUSH_FS` -/
def deferFlushFS : Nat := 6

/-- `FLUSH_FINAL` -/
def deferFlushFinal : Nat := 7

/-- `END` -/
def deferEnd : Nat := 8

/-- The `SendManager` state touched by the defer/exit path: the stored
correlation id (`self._exit_sync_uuid`), whether `self._exit_result` has been
set, the live subsystem handles (`self._dir_watcher`, `self._pusher`,
`self._fs`), the defer states republished through
`self._interface.publish_defer(state)`, and the results pushed to
`self._result_q`. -/
structure SenderState where
  exitSyncUuid : Option Nat
  exitResult : Bool
  dirWatcher : Bool
  pusher : Bool
  pusherFinished : Bool
  fs : Bool
  finalPublished : Bool
  published : List Nat
  results : List Nat
deriving DecidableEq, Repr

/-- `SendManager.send_exit`: store the correlation id when the producer
expects a synchronous reply, then kick off the defer state machine. -/
def sendExit (st : SenderState) (reqResp : Bool) (uuid : Nat) : SenderState :=
  if reqResp then { st with exitSyncUuid := some uuid } else st

/-- The sender-local phase actions of `send_request_defer`: FLUSH_DIR stops
the directory watcher, FLUSH_FP finishes the upload pipeline, FLUSH_FS
finishes the file stream, FLUSH_FINAL publishes the final/footer markers; the
other states (BEGIN, FLUSH_STATS, FLUSH_TB, FLUSH_SUM) do nothing here. -/
def deferLocalAction (st : SenderState) (state : Nat) : SenderState :=
  if state = deferFlushDir then { st with dirWatcher := false }
  else if state = deferFlushFP then
    (if st.pusher then { st with pusherFinished := true } else st)
  else if state = deferFlushFS then { st with fs := false }
  else if state = deferFlushFinal then { st with finalPublished := true }
  else st

/-- `SendManager.send_request_defer(state)`: perform the phase's local action,
then either republish `state + 1` (any state before END) or, at END, deliver
the exit result: push it to the stored correlation id when one exists, and
mark it available for asynchronous poll.  An unknown state raises
(`AssertionError`), modelled as `none`. -/
def sendRequestDefer (st : SenderState) (state : Nat) : Option SenderState :=
  if state ≤ 8 then
    let st1 := deferLocalAction st state
    if state = deferEnd then
      let st2 :=
        if st1.exitSyncUuid.isSome then
          { st1 with pusher := false, results := st1.results ++ [st1.exitSyncUuid.getD 0] }
        else st1
      some { st2 with exitResult := true }
    else
      some { st1 with published := st1.published ++ [state + 1] }
  else
    none

/-- Deliver a schedule of defer-advance requests to the sender, in order. -/
def processDefers (st : SenderState) : List Nat → Option SenderState
  | [] => some st
  | s :: rest =>
    match sendRequestDefer st s with
    | some st1 => processDefers st1 rest
    | none => none

/-- The local phase actions touch only the subsystem handles: correlation id,
result flag, published list and results queue are untouched. -/
theorem deferLocalAction_fields (st : SenderState) (s : Nat) :
    (deferLocalAction st s).exitSyncUuid = st.exitSyncUuid ∧
    (deferLocalAction st s).exitResult = st.exitResult ∧
    (deferLocalAction st s).published = st.published ∧
    (deferLocalAction st s).results = st.results := by
  unfold deferLocalAction
  split_ifs <;> simp

/-- One defer step never changes the stored correlation id, and appends one
result exactly when the step is END and a correlation id is stored. -/
theorem sendRequestDefer_step {st : SenderState} {s : Nat} {st' : SenderState}
    (h : sendRequestDefer st s = some st') :
    st'.exitSyncUuid = st.exitSyncUuid ∧
    st'.results.length
      = st.results.length + (if s = 8 ∧ st.exitSyncUuid.isSome then 1 else 0) := by
  obtain ⟨hu, hr, hp, hq⟩ := deferLocalAction_fields st s
  unfold sendRequestDefer at h
  dsimp only at h
  split at h
  · next hle =>
    split at h
    · next h8 =>
      rw [deferEnd] at h8
      split at h
      · next husome =>
        rw [hu] at husome
        obtain rfl := Option.some.inj h
        refine ⟨hu, ?_⟩
        rw [if_pos ⟨h8, husome⟩]
        simp [hq]
      · next hunone =>
        rw [hu] at hunone
        obtain rfl := Option.some.inj h
        refine ⟨hu, ?_⟩
        rw [if_neg (by simp [hunone])]
        simp [hq]
    · next h8 =>
      rw [deferEnd] at h8
      obtain rfl := Option.some.inj h
      refine ⟨hu, ?_⟩
      rw [if_neg (by simp [h8])]
      simp [hq]
  · exact absurd h (by simp)

/-- Results delivered over a whole schedule: the stored correlation id never
changes, and one result is pushed per END request delivered (none when no
correlation id is stored). -/
theorem processDefers_results : ∀ (sched : List Nat) (st st' : SenderState),
    processDefers st sched = some st' →
    st'.exitSyncUuid = st.exitSyncUuid ∧
    st'.results.length = st.results.length
      + (if st.exitSyncUuid.isSome then sched.count 8 else 0) := by
  intro sched
  induction sched with
  | nil =>
    intro st st' h
    obtain rfl : st = st' := Option.some.inj (by simpa [processDefers] using h)
    simp
  | cons s rest ih =>
    intro st st' h
    unfold processDefers at h
    split at h
    · next st1 hstep =>
      obtain ⟨hu1, hr1⟩ := sendRequestDefer_step hstep
      obtain ⟨hu2, hr2⟩ := ih st1 st' h
      refine ⟨hu2.trans hu1, ?_⟩
      rw [hr2, hu1, hr1, List.count_cons]
      by_cases huu : st.exitSyncUuid.isSome <;> by_cases h8 : s = 8 <;>
        simp [huu, h8] <;> omega
    · exact absurd h (by simp)

/-- C2: the sender defer state machine advances exactly one step per request,
republishing `state + 1` after the phase's local action for every state before
END; an out-of-range state is rejected (assertion); END republishes nothing,
marks the exit result available for poll, and pushes it to the stored
correlation id when one was stored by the exit record; over any delivery
schedule (in any order, with any redelivery), exit results are delivered
exactly once per END request — in particular exactly once when END is reached
exactly once. -/
theorem c2_defer_state_machine :
    (∀ (st : SenderState) (s : Nat), 8 < s → sendRequestDefer st s = none) ∧
    (∀ (st : SenderState) (s : Nat), s < 8 →
      ∃ st', sendRequestDefer st s = some st' ∧
        st'.published = st.published ++ [s + 1] ∧
        st'.results = st.results ∧ st'.exitResult = st.exitResult ∧
        st'.exitSyncUuid = st.exitSyncUuid) ∧
    (∀ st : SenderState,
      ∃ st', sendRequestDefer st deferEnd = some st' ∧
        st'.published = st.published ∧ st'.exitResult = true ∧
        st'.results = st.results ++ (match st.exitSyncUuid with
          | some u => [u]
          | none => [])) ∧
    (∀ (sched : List Nat) (st st' : SenderState), processDefers st sched = some st' →
      st'.results.length = st.results.length
        + (if st.exitSyncUuid.isSome then sched.count 8 else 0)) := by
  refine ⟨?_, ?_, ?_, ?_⟩
  · intro st s hs
    unfold sendRequestDefer
    rw [if_neg (by omega)]
  · intro st s hs
    obtain ⟨hu, hr, hp, hq⟩ := deferLocalAction_fields st s
    unfold sendRequestDefer
    dsimp only
    rw [if_pos (by omega), if_neg (by rw [deferEnd]; omega)]
    exact ⟨_, rfl, by simp [hp], by simp [hq], by simp [hr], by simp [hu]⟩
  · intro st
    obtain ⟨hu, hr, hp, hq⟩ := deferLocalAction_fields st deferEnd
    unfold sendRequestDefer
    dsimp only
    rw [if_pos (by rw [deferEnd]), if_pos rfl]
    cases hequ : st.exitSyncUuid with
    | some u =>
      rw [if_pos (by rw [hu, hequ]; rfl)]
      refine ⟨_, rfl, by simp [hp], by simp, ?_⟩
      simp only [hq, hu, hequ, Option.getD_some]
    | none =>
      rw [if_neg (by rw [hu, hequ]; simp)]
      exact ⟨_, rfl, by simp [hp], by simp, by simp [hq]⟩
  · intro sched st st' h
    exact (processDefers_results sched st st' h).2

/-- A concrete sender state with a stored correlation id and live subsystems. -/
def c2Start : SenderState := ⟨some 42, false, true, true, false, true, false, [], []⟩

/-- The state after delivering the defer schedule `[0, 8, 8]` to `c2Start`. -/
def c2Final : SenderState := (processDefers c2Start [0, 8, 8]).getD c2Start

/-- Witness for C2 at concrete states: an out-of-range request is rejected, a
BEGIN request republishes state 1, and a schedule containing END twice
delivers exactly two results (hence once per END). -/
theorem c2_defer_state_machine_witness :
    sendRequestDefer c2Start 9 = none ∧
    (∃ st', sendRequestDefer c2Start 0 = some st' ∧
      st'.published = c2Start.published ++ [0 + 1] ∧
      st'.results = c2Start.results ∧ st'.exitResult = c2Start.exitResult ∧
      st'.exitSyncUuid = c2Start.exitSyncUuid) ∧
    processDefers c2Start [0, 8, 8] = some c2Final ∧
    c2Final.results.length = c2Start.results.length
      + (if c2Start.exitSyncUuid.isSome then [0, 8, 8].count 8 else 0) :=
  ⟨c2_defer_state_machine.1 c2Start 9 (by decide),
   c2_defer_state_machine.2.1 c2Start 0 (by decide),
   by decide,
   c2_defer_state_machine.2.2.2 [0, 8, 8] c2Start c2Final (by decide)⟩

/-- The step derivation of `_maybe_setup_resume`:
`history.get("_step", -1) + 1 if history else 0`, where `history` is the
parsed last entry of the backend's `historyTail`. -/
def resumeStep (history : List (String × Int)) : Int :=
  if history.isEmpty then 0 else (PyDict.lookupEntry history "_step").getD (-1) + 1

/-- The resume state fields used by `send_run`/`_init_run`
(`self._resume_state`). -/
structure ResumeStateM where
  step : Int
  config : Option (List (String × Int))
  resumed : Bool
deriving DecidableEq, Repr

/-- The run-record fields set by `_init_run` from the resume state. -/
structure RunRecordM where
  starting_step : Int
  resumed : Bool
deriving DecidableEq, Repr

/-- The resumed-config merge in `send_run`: when a resumed config exists, it
is taken as the base and updated with the new config override
(`config_dict = self._resume_state["config"]; config_dict.update(config_override)`). -/
def mergeResumedConfig (resumeConfig configDict : Option (List (String × Int))) :
    Option (List (String × Int)) :=
  match resumeConfig with
  | some rc => some (PyDict.dictUpdate rc (configDict.getD []))
  | none => configDict

/-- `_init_run`: the run's starting step is taken from the resume state, and
the resumed flag is set when resuming. -/
def initRun (resumeState : ResumeStateM) (r : RunRecordM) : RunRecordM :=
  { r with
    resumed := if resumeState.resumed then true else r.resumed,
    starting_step := resumeState.step }

/-- C8: a history tail whose last entry has `_step = 15` derives resume step
16; a resume state with step 16 makes the initialized run start at step 16;
and for every key present in the config override, the merged config (resumed
config updated with the override) carries the override's value. -/
theorem c8_resume_merge :
    resumeStep [("_step", (15 : Int))] = 16 ∧
    (∀ (rs : ResumeStateM) (r : RunRecordM), rs.step = 16 →
      (initRun rs r).starting_step = 16) ∧
    (∀ (rc ov : List (String × Int)) (k : String) (v : Int),
      (ov.map Prod.fst).Nodup → PyDict.lookupEntry ov k = some v →
      mergeResumedConfig (some rc) (some ov) = some (PyDict.dictUpdate rc ov) ∧
      PyDict.lookupEntry (PyDict.dictUpdate rc ov) k = some v) := by
  refine ⟨by decide, ?_, ?_⟩
  · intro rs r h
    simp [initRun, h]
  · intro rc ov k v hnd hlook
    exact ⟨rfl, PyDict.lookupEntry_dictUpdate_mem ov hnd hlook rc⟩

/-- Witness for C8 at concrete values: step 16 and an overlapping key `"lr"`
whose override value 3 wins over the resumed value 1. -/
theorem c8_resume_merge_witness :
    (initRun ⟨16, none, true⟩ ⟨0, false⟩).starting_step = 16 ∧
    PyDict.lookupEntry
      (PyDict.dictUpdate [("lr", (1 : Int)), ("bs", 2)] [("lr", 3)]) "lr" = some 3 :=
  ⟨c8_resume_merge.2.1 ⟨16, none, true⟩ ⟨0, false⟩ (by decide),
   (c8_resume_merge.2.2 [("lr", 1), ("bs", 2)] [("lr", 3)] "lr" 3
     (by decide) (by decide)).2⟩

end Sender
